import Mathlib

/-!
Formal model of the RAMOS UEFI shell (src/main.rs).

Shallow embedding conventions:
* Rust strings and byte buffers are modelled as `List Nat` (their UTF-8 bytes);
  `strB` turns an ASCII Lean string literal into its byte list.
* `u8` arithmetic is `Nat` arithmetic with explicit `% 256` where the source
  can overflow a byte.
* The UEFI file-system and system-table collaborators are abstracted:
  `LoadFsView` enumerates the outcomes the load path can observe, and
  `SysEnv.saveErr` the outcome of a save.
-/

namespace Ramos

/-- UTF-8 bytes of an ASCII string literal. -/
def strB (s : String) : List Nat := s.data.map Char.toNat

/-! ## Base64 decoder (src/main.rs, `decode_base64`, lines 351-378) -/

/-- the decoder's 64-symbol alphabet (line 352). -/
def b64Table : List Nat :=
  strB "ABCDEFGHIJKLMNOPQRSTUVWXYZabcdefghijklmnopqrstuvwxyz0123456789+/"

/-- `TABLE.iter().position(|c| *c == b)` (line 360): index of a byte in a list. -/
def posIn (b : Nat) : List Nat → Option Nat
  | [] => none
  | c :: rest => if c = b then some 0 else (posIn b rest).map (· + 1)

/-- Position of `b` in the base64 alphabet, `none` when `b` is not a symbol. -/
def b64Index (b : Nat) : Option Nat := posIn b b64Table

/-- The three output bytes of a full 4-symbol group (lines 364-366).
`chunk[i] << k` on `u8` is `* 2^k % 256`; the `|`s combine disjoint bits. -/
def b64Emit (c : List Nat) : List Nat :=
  match c with
  | [c0, c1, c2, c3] =>
    [(c0 * 4) % 256 ||| c1 / 16, (c1 * 16) % 256 ||| c2 / 4, (c2 * 64) % 256 ||| c3]
  | _ => []

/-- The decoding loop (lines 356-370).  The pending group is carried as the
list of symbol values accumulated so far (the source's `chunk` array cells
are always overwritten before being read again, so only the first `idx`
cells matter).  Decoding stops at the first 61 (ASCII `=`); bytes that are
not in the alphabet are skipped. -/
def decodeLoop : List Nat → List Nat → List Nat → List Nat × List Nat
  | [], out, chunk => (out, chunk)
  | b :: rest, out, chunk =>
    if b = 61 then (out, chunk)
    else
      match b64Index b with
      | some p =>
        let c := chunk ++ [p]
        if c.length = 4 then decodeLoop rest (out ++ b64Emit c) []
        else decodeLoop rest out c
      | none => decodeLoop rest out chunk

/-- The trailing partial group (lines 371-376): 3 pending symbols yield two
bytes, 2 yield one, anything else yields nothing. -/
def decodeTail (out chunk : List Nat) : List Nat :=
  match chunk with
  | [c0, c1, c2] => out ++ [(c0 * 4) % 256 ||| c1 / 16, (c1 * 16) % 256 ||| c2 / 4]
  | [c0, c1] => out ++ [(c0 * 4) % 256 ||| c1 / 16]
  | _ => out

/-- The raw byte output of `decode_base64` before the UTF-8 check. -/
def decodeBase64Bytes (data : List Nat) : List Nat :=
  let r := decodeLoop data [] []
  decodeTail r.1 r.2

/-- Whether `b` is a UTF-8 continuation byte (`0x80..=0xBF`). -/
def utf8Cont (b : Nat) : Bool := 128 ≤ b && b ≤ 191

/-- UTF-8 validity of a byte sequence, the check performed by Rust's
`String::from_utf8` (line 377): the standard well-formedness table, with
surrogates (`ED A0..` ) and code points above `10FFFF` (`F4 90..`, `F5..`)
rejected. -/
def validUtf8 : List Nat → Bool
  | [] => true
  | b :: rest =>
    if b < 128 then validUtf8 rest
    else if 194 ≤ b && b ≤ 223 then
      match rest with
      | b1 :: r => utf8Cont b1 && validUtf8 r
      | [] => false
    else if b = 224 then
      match rest with
      | b1 :: b2 :: r => (160 ≤ b1 && b1 ≤ 191) && utf8Cont b2 && validUtf8 r
      | _ => false
    else if (225 ≤ b && b ≤ 236) || b = 238 || b = 239 then
      match rest with
      | b1 :: b2 :: r => utf8Cont b1 && utf8Cont b2 && validUtf8 r
      | _ => false
    else if b = 237 then
      match rest with
      | b1 :: b2 :: r => (128 ≤ b1 && b1 ≤ 159) && utf8Cont b2 && validUtf8 r
      | _ => false
    else if b = 240 then
      match rest with
      | b1 :: b2 :: b3 :: r => (144 ≤ b1 && b1 ≤ 191) && utf8Cont b2 && utf8Cont b3 && validUtf8 r
      | _ => false
    else if 241 ≤ b && b ≤ 243 then
      match rest with
      | b1 :: b2 :: b3 :: r => utf8Cont b1 && utf8Cont b2 && utf8Cont b3 && validUtf8 r
      | _ => false
    else if b = 244 then
      match rest with
      | b1 :: b2 :: b3 :: r => (128 ≤ b1 && b1 ≤ 143) && utf8Cont b2 && utf8Cont b3 && validUtf8 r
      | _ => false
    else false

/-- `decode_base64` (lines 351-378): decode, then keep the bytes only when
they form valid UTF-8 (`String::from_utf8(out).ok()`). -/
def decode_base64 (data : List Nat) : Option (List Nat) :=
  let out := decodeBase64Bytes data
  if validUtf8 out then some out else none

/-! ## Persisted state (src/main.rs, lines 117-135)

`vars : BTreeMap<String, String>` is modelled as an association list of
byte strings kept sorted by byte-lexicographic key order — the order in
which a `BTreeMap<String, _>` stores and iterates its entries. -/

/-- Byte-lexicographic order on byte strings (the `Ord` of Rust `String`). -/
def listLt : List Nat → List Nat → Bool
  | [], [] => false
  | [], _ :: _ => true
  | _ :: _, [] => false
  | a :: as', b :: bs => if a < b then true else if b < a then false else listLt as' bs

/-- `BTreeMap::insert`: replace the value at an existing key, otherwise
place the new entry at its sorted position. -/
def insertVar (k v : List Nat) : List (List Nat × List Nat) → List (List Nat × List Nat)
  | [] => [(k, v)]
  | (k', v') :: rest =>
    if k = k' then (k, v) :: rest
    else if listLt k k' then (k, v) :: (k', v') :: rest
    else (k', v') :: insertVar k v rest

/-- `BTreeMap::get`. -/
def lookupVar (k : List Nat) : List (List Nat × List Nat) → Option (List Nat)
  | [] => none
  | (k', v) :: rest => if k' = k then some v else lookupVar k rest

/-- `PersistedState` (lines 117-122). -/
structure PersistedState where
  vars : List (List Nat × List Nat)
  history : List (List Nat)
  hints_shown : Bool
deriving DecidableEq, Repr

/-- `PersistedState::new` (lines 124-135): `user` and `host` default to
`ramos`, empty history, hints not shown. -/
def PersistedState.new : PersistedState :=
  { vars := insertVar (strB "host") (strB "ramos") (insertVar (strB "user") (strB "ramos") [])
    history := []
    hints_shown := false }

/-- The seeded base64 payload (line 452). -/
def encodedVault : List Nat :=
  strB "UkFNT1N7RjB1bmRfM3ZlbjNfenJfc3Qwbmx5X2luX3RoZV9mdXR1cmV9"

/-- The two hint history lines pushed by `embed_flag` (lines 454-455). -/
def hintLine1 : List Nat := strB "echo the vault lives under hidden keys"

/-- Second hint history line pushed by `embed_flag` (line 455). -/
def hintLine2 : List Nat := strB "echo base64 unlocks forgotten things"

/-- `embed_flag` (lines 451-456): store the encoded payload under `_vault`
and push the two hint lines onto the history. -/
def embed_flag (st : PersistedState) : PersistedState :=
  { st with
    vars := insertVar (strB "_vault") encodedVault st.vars
    history := st.history ++ [hintLine1, hintLine2] }

/-! ## State codec (src/main.rs, `save_state` lines 386-421,
`parse_state` lines 458-478) -/

/-- One `kv:<key>=<value>` record (lines 403-408); 61 is `=`. -/
def kvLine (kv : List Nat × List Nat) : List Nat := strB "kv:" ++ kv.1 ++ 61 :: kv.2

/-- One `h:<line>` record (lines 410-413). -/
def hLine (h : List Nat) : List Nat := strB "h:" ++ h

/-- The records written by `save_state` (lines 402-417), in order: one per
`vars` entry, one per `history` entry, then `hint:1` iff `hints_shown`. -/
def stateLines (st : PersistedState) : List (List Nat) :=
  st.vars.map kvLine ++ st.history.map hLine ++
    (if st.hints_shown then [strB "hint:1"] else [])

/-- The file content `save_state` writes: each record terminated by a
newline (byte 10). -/
def serializeState (st : PersistedState) : List Nat :=
  ((stateLines st).map (· ++ [10])).flatten

/-- Split a byte string at every newline, keeping all pieces
(`str::split('\n')`; the result always has one more piece than there are
newlines). -/
def splitNL : List Nat → List (List Nat)
  | [] => [[]]
  | b :: rest =>
    if b = 10 then [] :: splitNL rest
    else
      match splitNL rest with
      | l :: ls => (b :: l) :: ls
      | [] => [[b]]

/-- Drop a single trailing carriage return (byte 13), as Rust's `lines`
does to each newline-terminated piece. -/
def stripCR (l : List Nat) : List Nat :=
  if l.getLast? = some 13 then l.dropLast else l

/-- Rust `str::lines` (used at line 463): terminator semantics — the piece
after a final newline is dropped when empty; every newline-terminated piece
has one trailing `\r` stripped; a final unterminated piece is kept as-is. -/
def rustLines (s : List Nat) : List (List Nat) :=
  let ps := splitNL s
  let term := ps.dropLast.map stripCR
  match ps.getLast? with
  | some [] => term
  | some last => term ++ [last]
  | none => term

/-- `str::split_once('=')` (line 465): the pieces before and after the
first 61 (`=`), or `none` when there is none. -/
def splitOnceEq : List Nat → Option (List Nat × List Nat)
  | [] => none
  | b :: rest =>
    if b = 61 then some ([], rest)
    else
      match splitOnceEq rest with
      | some kv => some (b :: kv.1, kv.2)
      | none => none

/-- Processing of one line of the state file (lines 463-473).  The byte
patterns are the record tags: `[107,118,58]` is `kv:`, `[104,58]` is `h:`,
`[104,105,110,116,58]` is `hint:` — tested in the source's order.  A `kv:`
line without a `=` does nothing; any other unrecognized line is ignored. -/
def parseLine (st : PersistedState) (line : List Nat) : PersistedState :=
  match line with
  | 107 :: 118 :: 58 :: rest =>
    (match splitOnceEq rest with
     | some kv => { st with vars := insertVar kv.1 kv.2 st.vars }
     | none => st)
  | 104 :: 58 :: rest => { st with history := st.history ++ [rest] }
  | 104 :: 105 :: 110 :: 116 :: 58 :: _ => { st with hints_shown := true }
  | _ => st

/-- The parsing loop of `parse_state` over decoded content (lines 462-477):
fold the lines over a fresh default state, then run `embed_flag` iff no
`_vault` key was found. -/
def parseContent (content : List Nat) : PersistedState :=
  let st := (rustLines content).foldl parseLine PersistedState.new
  if (lookupVar (strB "_vault") st.vars).isSome then st else embed_flag st

/-- `parse_state` (lines 458-478).  `readRes` is what `file.read` into the
4096-byte buffer produced: `none` for a failed read (`unwrap_or(0)` — empty
content), `some bytes` for a successful one; the `take 4096` models the
fixed buffer size.  Content that is not valid UTF-8 collapses to empty
(`from_utf8(..).unwrap_or("")`). -/
def parse_state (readRes : Option (List Nat)) : PersistedState :=
  let bytes := (readRes.getD []).take 4096
  parseContent (if validUtf8 bytes then bytes else [])

/-! ## Load state machine (src/main.rs, `load_state` lines 423-449,
`default_state` lines 444-449) -/

/-- The outcomes the load path can observe from the file system:
the `EFI` directory unopenable, the `RAMOS` directory unopenable, the
`state.txt` file unopenable, or the file opened with a given read result.
(`ensure_dir`'s create-if-absent side effects do not touch the state.) -/
inductive LoadFsView where
  | noEfiDir : LoadFsView
  | noRamosDir : LoadFsView
  | noStateFile : LoadFsView
  | stateFile (readRes : Option (List Nat)) : LoadFsView
deriving DecidableEq

/-- `default_state` (lines 444-449): a fresh state, one shell message, and
one `embed_flag` seeding.  Returns the state and the printed lines. -/
def default_state : PersistedState × List (List Nat) :=
  (embed_flag PersistedState.new, [strB "No prior state found. Fresh session."])

/-- `load_state` (lines 423-442).  Note the file-unopenable branch (lines
436-440) calls `embed_flag` on top of `default_state`, which already
seeded. -/
def load_state : LoadFsView → PersistedState × List (List Nat)
  | .noEfiDir => default_state
  | .noRamosDir => default_state
  | .noStateFile => (embed_flag default_state.1, default_state.2)
  | .stateFile r => (parse_state r, [])

/-! ## Shell state and command interpreter (src/main.rs, lines 137-348)

Only the scrollback `lines` and the `input` line of `Shell` are carried
here; the pixel-buffer fields are modelled separately below, since no
command touches pixels (the redraw happens outside `execute`). -/

/-- The scrollback and in-progress input line of `Shell` (lines 144-145). -/
structure ShellM where
  lines : List (List Nat)
  input : List Nat
deriving DecidableEq

/-- `Shell::println` (lines 234-236). -/
def println (sh : ShellM) (l : List Nat) : ShellM :=
  { sh with lines := sh.lines ++ [l] }

/-- The external collaborators `execute` can consult: the file-system view
used by a `load`, and the outcome of a `save` (`none` = success, `some e` =
failure with debug text `e`; the exact `{:?}` rendering of the error is
abstracted as those bytes). -/
structure SysEnv where
  fsv : LoadFsView
  saveErr : Option (List Nat)

/-- ASCII whitespace bytes recognized by `split_whitespace`.  (Rust splits
on Unicode whitespace; on the ASCII bytes the shell's input editor admits —
graphic characters and space — the two coincide.) -/
def isWS (b : Nat) : Bool :=
  b = 9 || b = 10 || b = 11 || b = 12 || b = 13 || b = 32

/-- Helper for `splitWS`: accumulate the current token. -/
def splitWSAux : List Nat → List Nat → List (List Nat)
  | acc, [] => if acc = [] then [] else [acc]
  | acc, b :: rest =>
    if isWS b then
      if acc = [] then splitWSAux [] rest else acc :: splitWSAux [] rest
    else splitWSAux (acc ++ [b]) rest

/-- `str::split_whitespace` (line 264): whitespace-separated tokens, empty
pieces dropped. -/
def splitWS (l : List Nat) : List (List Nat) := splitWSAux [] l

/-- `Vec::join(" ")` used by `echo` (line 277). -/
def joinSp : List (List Nat) → List Nat
  | [] => []
  | [x] => x
  | x :: xs => x ++ 32 :: joinSp xs

/-- The echo prompt `"{user}@{host}:> {line}"` (line 259), with `ramos` as
fallback for a missing `user` or `host`. -/
def promptLine (st : PersistedState) (line : List Nat) : List Nat :=
  ((lookupVar (strB "user") st.vars).getD (strB "ramos")) ++ strB "@" ++
    ((lookupVar (strB "host") st.vars).getD (strB "ramos")) ++ strB ":> " ++ line

/-- Decimal rendering of an index, for `history`'s `"{idx}: {entry}"`. -/
def natBytes (n : Nat) : List Nat := strB (Nat.repr n)

/-- The command dispatch of `Shell::execute` (lines 266-346), one branch
per arm of the source `match`, in source order.  `reboot` and `shutdown`
invoke the reset collaborator and do not return; their (unreachable)
post-state is modelled as unchanged. -/
def execCmd (cmd : List Nat) (args : List (List Nat)) (sh : ShellM)
    (st : PersistedState) (env : SysEnv) : ShellM × PersistedState :=
  if cmd = strB "help" then
    (println sh (strB "Commands: help, about, clear, echo, set, get, vars, save, load, reboot, shutdown"), st)
  else if cmd = strB "about" then
    (println sh (strB "RAMOS is a Rust UEFI meme OS with a hand-drawn UI."), st)
  else if cmd = strB "clear" then
    ({ sh with lines := [] }, st)
  else if cmd = strB "echo" then
    (println sh (joinSp args), st)
  else if cmd = strB "set" then
    match args with
    | k :: v :: _ => (println sh (strB "ok"), { st with vars := insertVar k v st.vars })
    | _ => (println sh (strB "usage: set <key> <value>"), st)
  else if cmd = strB "get" then
    match args with
    | k :: _ =>
      (match lookupVar k st.vars with
       | some v => (println sh v, st)
       | none => (println sh (strB "(unset)"), st))
    | [] => (println sh (strB "usage: get <key>"), st)
  else if cmd = strB "vars" then
    (st.vars.foldl
      (fun s kv => if kv.1.head? = some 95 then s else println s (kv.1 ++ 61 :: kv.2)) sh, st)
  else if cmd = strB "history" then
    (st.history.enum.foldl (fun s p => println s (natBytes p.1 ++ strB ": " ++ p.2)) sh, st)
  else if cmd = strB "save" then
    (println sh (match env.saveErr with
      | none => strB "state saved"
      | some e => strB "save failed: " ++ e), st)
  else if cmd = strB "load" then
    let r := load_state env.fsv
    (println { sh with lines := sh.lines ++ r.2 } (strB "state loaded"), r.1)
  else if cmd = strB "reboot" then (sh, st)
  else if cmd = strB "shutdown" then (sh, st)
  else if cmd = strB "flag" then
    match lookupVar (strB "_vault") st.vars with
    | some secret =>
      (match decode_base64 secret with
       | some d => (println sh d, st)
       | none => (println sh (strB "vault sealed"), st))
    | none => (println sh (strB "nothing here"), st)
  else (println sh (strB "unknown command"), st)

/-- `Shell::execute` (lines 258-348): echo the prompt, stop on an empty
line, split on whitespace, dispatch on the first token (no token: no-op). -/
def execute (line : List Nat) (sh : ShellM) (st : PersistedState) (env : SysEnv) :
    ShellM × PersistedState :=
  let sh := println sh (promptLine st line)
  if line = [] then (sh, st)
  else
    match splitWS line with
    | [] => (sh, st)
    | cmd :: args => execCmd cmd args sh st env

/-- `Shell::push_char` (lines 238-242): accept only ASCII graphic bytes
(33-126) or the space. -/
def push_char (c : Nat) (sh : ShellM) : ShellM :=
  if (33 ≤ c ∧ c ≤ 126) ∨ c = 32 then { sh with input := sh.input ++ [c] } else sh

/-- One key event as seen by the main loop (lines 58-75). -/
inductive KeyEvent where
  | printable (c : Nat) : KeyEvent
  | backspace : KeyEvent
  | enter : KeyEvent
  | escape : KeyEvent
  | other : KeyEvent
deriving DecidableEq

/-- One iteration of the `efi_main` event loop (lines 58-75): printable
keys edit the input, Backspace pops a byte, Escape clears the input, and
Enter takes the input, pushes it (when non-empty) onto the history, and
executes it. -/
def session_step (ev : KeyEvent) (sh : ShellM) (st : PersistedState) (env : SysEnv) :
    ShellM × PersistedState :=
  match ev with
  | .printable c => (push_char c sh, st)
  | .backspace => ({ sh with input := sh.input.dropLast }, st)
  | .enter =>
    let input := sh.input
    let sh' := { sh with input := [] }
    let st' := if input ≠ [] then { st with history := st.history ++ [input] } else st
    execute input sh' st' env
  | .escape => ({ sh with input := [] }, st)
  | .other => (sh, st)

/-! ## Framebuffer drawing (src/main.rs, `fill_rect` lines 198-211,
`draw_text` lines 213-232)

The pixel buffer is a `List Nat` of bytes.  `px_format` (bytes per pixel)
is always 4 in the program (`framebuffer_info`, line 100). -/

/-- The byte written at offset `o` within a pixel cell: the source stores
blue at `idx`, green at `idx+1`, red at `idx+2` for a color `(r, g, b)`. -/
def byteOfColor (c : Nat × Nat × Nat) : Nat → Nat
  | 0 => c.2.2
  | 1 => c.2.1
  | 2 => c.1
  | _ => 0

/-- The body of `fill_rect`'s inner loop (lines 202-208): write one pixel
cell, skipping it entirely when `idx + 3 > buffer.len()`. -/
def writePx (stride px : Nat) (c : Nat × Nat × Nat) (buf : List Nat) (col row : Nat) :
    List Nat :=
  let idx := row * stride * px + col * px
  if idx + 3 > buf.length then buf
  else ((buf.set idx c.2.2).set (idx + 1) c.2.1).set (idx + 2) c.1

/-- `Shell::fill_rect` (lines 198-211): for every row `y..y+h` and column
`x..x+w`, write the color into the cell, silently skipping out-of-buffer
cells. -/
def fill_rect (stride px x y w h : Nat) (c : Nat × Nat × Nat) (buf : List Nat) :
    List Nat :=
  (List.range h).foldl
    (fun b r => (List.range w).foldl (fun b2 cl => writePx stride px c b2 (x + cl) (y + r)) b)
    buf

/-- `Shell::draw_text`'s loop (lines 213-232), with `font8x8::render_char`
(a module of this repository not under src/) abstracted as the parameter
`render cx y ch buf` — per the spec it paints only the 8x8 cell at
`(cx, y)`, but no property below depends on what it paints.  The loop
stops, dropping the remaining characters, as soon as `cursor_x + 8 ≥
width`; otherwise it renders the glyph and advances the cursor by 8. -/
def draw_text (render : Nat → Nat → Nat → List Nat → List Nat) (width y : Nat) :
    Nat → List Nat → List Nat → List Nat
  | _, [], buf => buf
  | cx, ch :: rest, buf =>
    if cx + 8 ≥ width then buf
    else draw_text render width y (cx + 8) rest (render cx y ch buf)

/-- The number of glyph slots `i` with `x + 8*i + 8 < width`: how many
glyphs fit strictly before the right edge reaches the buffer width. -/
def numFit (width x : Nat) : Nat := (width - (x + 8) + 7) / 8

/-- The cells `(col, row)` visited by `fill_rect`'s two nested loops, in
iteration order. -/
def rectCells (x y w h : Nat) : List (Nat × Nat) :=
  ((List.range h).map (fun r => (List.range w).map (fun cl => (x + cl, y + r)))).flatten

/-- Whether byte position `j` is one of the three bytes the cell `rc`
writes, with the cell's byte offset inside a buffer of length `len`
(bytes-per-pixel fixed at 4, as the program always reports). -/
def cellHits (stride len : Nat) (rc : Nat × Nat) (j : Nat) : Prop :=
  rc.2 * stride * 4 + rc.1 * 4 + 3 ≤ len ∧
    (j = rc.2 * stride * 4 + rc.1 * 4 ∨ j = rc.2 * stride * 4 + rc.1 * 4 + 1 ∨
      j = rc.2 * stride * 4 + rc.1 * 4 + 2)

instance (stride len : Nat) (rc : Nat × Nat) (j : Nat) :
    Decidable (cellHits stride len rc j) := by
  unfold cellHits
  exact inferInstance

/-- The value a single parsed line stores under `_vault`, when it is a
`kv:_vault=...` line; `none` otherwise. -/
def vaultValue? (l : List Nat) : Option (List Nat) :=
  match l with
  | 107 :: 118 :: 58 :: rest =>
    (match splitOnceEq rest with
     | some kv => if kv.1 = strB "_vault" then some kv.2 else none
     | none => none)
  | _ => none

/-- The value stored under `_vault` by the last vault-setting line of a
line list, if any. -/
def lastVault (ls : List (List Nat)) : Option (List Nat) :=
  ls.foldl (fun acc l => (vaultValue? l).or acc) none

/-- A concrete pre-state whose history holds one committed line, `ls`. -/
def stateWithLs : PersistedState :=
  { vars := PersistedState.new.vars, history := [strB "ls"], hints_shown := false }

/-! ## Lemmas about the base64 decoder -/

theorem decodeLoop_stop (v : List Nat) :
    ∀ (u out chunk : List Nat),
      decodeLoop (u ++ 61 :: v) out chunk = decodeLoop (u ++ [61]) out chunk := by
  intro u
  induction u with
  | nil => intro out chunk; simp [decodeLoop]
  | cons a u ih =>
    intro out chunk
    simp only [List.cons_append, decodeLoop]
    by_cases ha : a = 61
    · simp [ha]
    · simp only [ha, if_false]
      cases h : b64Index a with
      | none => exact ih out chunk
      | some p =>
        simp only
        split
        · exact ih _ _
        · exact ih _ _

theorem decodeLoop_skip {b : Nat} (hb : b64Index b = none) (hne : b ≠ 61) (v : List Nat) :
    ∀ (u out chunk : List Nat),
      decodeLoop (u ++ b :: v) out chunk = decodeLoop (u ++ v) out chunk := by
  intro u
  induction u with
  | nil =>
    intro out chunk
    simp [decodeLoop, hne, hb]
  | cons a u ih =>
    intro out chunk
    simp only [List.cons_append, decodeLoop]
    by_cases ha : a = 61
    · simp [ha]
    · simp only [ha, if_false]
      cases h : b64Index a with
      | none => exact ih out chunk
      | some p =>
        simp only
        split
        · exact ih _ _
        · exact ih _ _

theorem b64Index_61 : b64Index 61 = none := by decide

theorem b64Emit_length {c : List Nat} (h : c.length = 4) : (b64Emit c).length = 3 := by
  match c, h with
  | [c0, c1, c2, c3], _ => simp [b64Emit]

theorem decodeLoop_count :
    ∀ (s out chunk : List Nat), (∀ b ∈ s, (b64Index b).isSome) → chunk.length ≤ 3 →
      (decodeLoop s out chunk).1.length = out.length + 3 * ((chunk.length + s.length) / 4) ∧
      (decodeLoop s out chunk).2.length = (chunk.length + s.length) % 4 := by
  intro s
  induction s with
  | nil =>
    intro out chunk _ hc
    constructor
    · simp [decodeLoop]; omega
    · simp [decodeLoop]; omega
  | cons b s ih =>
    intro out chunk hall hc
    have hb : (b64Index b).isSome := hall b (by simp)
    have hne : b ≠ 61 := by
      intro h; rw [h, b64Index_61] at hb; simp at hb
    obtain ⟨p, hp⟩ := Option.isSome_iff_exists.mp hb
    have hall' : ∀ x ∈ s, (b64Index x).isSome := fun x hx => hall x (by simp [hx])
    simp only [decodeLoop, hne, if_false, hp]
    by_cases h4 : (chunk ++ [p]).length = 4
    · rw [if_pos h4]
      have hlen : chunk.length = 3 := by simp at h4; omega
      obtain ⟨h1, h2⟩ := ih (out ++ b64Emit (chunk ++ [p])) [] hall' (by simp)
      constructor
      · rw [h1]
        simp [b64Emit_length h4, hlen]
        omega
      · rw [h2]
        simp [hlen]
        omega
    · rw [if_neg h4]
      have hlen : (chunk ++ [p]).length = chunk.length + 1 := by simp
      obtain ⟨h1, h2⟩ := ih out (chunk ++ [p]) hall' (by simp at h4 ⊢; omega)
      constructor
      · rw [h1, hlen]; simp only [List.length_cons]; omega
      · rw [h2, hlen]; simp only [List.length_cons]; omega

theorem decodeTail_length (out chunk : List Nat) :
    (decodeTail out chunk).length =
      out.length +
        (if chunk.length = 3 then 2 else if chunk.length = 2 then 1 else 0) := by
  rcases chunk with _ | ⟨a, _ | ⟨b, _ | ⟨c, _ | ⟨d, t⟩⟩⟩⟩ <;> simp [decodeTail]

/-- C1: the base64 decoder processes bytes one at a time; bytes outside the
64-symbol alphabet are skipped (removing one changes nothing); decoding
stops at the first `=` (byte 61), so everything after an interior `=` is
ignored; full groups of 4 symbols yield 3 bytes, a trailing group of 3
symbols yields 2 bytes, of 2 symbols 1 byte, any other trailing count
nothing; and the bytes are returned only when they are valid UTF-8,
otherwise the decode yields `none`. -/
theorem c1_base64_decoder :
    (∀ (u : List Nat) (b : Nat) (v : List Nat), b64Index b = none → b ≠ 61 →
        decode_base64 (u ++ b :: v) = decode_base64 (u ++ v)) ∧
    (∀ u v : List Nat, decode_base64 (u ++ 61 :: v) = decode_base64 (u ++ [61])) ∧
    (∀ s : List Nat, (∀ b ∈ s, (b64Index b).isSome) →
        (decodeBase64Bytes s).length =
          3 * (s.length / 4) +
            (if s.length % 4 = 3 then 2 else if s.length % 4 = 2 then 1 else 0)) ∧
    (∀ d : List Nat, decode_base64 d =
        if validUtf8 (decodeBase64Bytes d) then some (decodeBase64Bytes d) else none) := by
  refine ⟨?_, ?_, ?_, fun d => rfl⟩
  · intro u b v hb hne
    unfold decode_base64 decodeBase64Bytes
    rw [decodeLoop_skip hb hne v u]
  · intro u v
    unfold decode_base64 decodeBase64Bytes
    rw [decodeLoop_stop v u]
  · intro s hall
    obtain ⟨h1, h2⟩ := decodeLoop_count s [] [] hall (by simp)
    unfold decodeBase64Bytes
    rw [decodeTail_length, h1, h2]
    simp

/-- Witness for C1 at concrete inputs: `-` (45) is skipped, an interior `=`
(61) stops the decode, and a 7-symbol input yields 3·1+2 bytes. -/
theorem c1_witness :
    (b64Index 45 = none ∧ (45 : Nat) ≠ 61 ∧
      decode_base64 (strB "QUJD" ++ 45 :: strB "RkdI") = decode_base64 (strB "QUJDRkdI")) ∧
    decode_base64 (strB "QUJD" ++ 61 :: strB "zz") = decode_base64 (strB "QUJD" ++ [61]) ∧
    ((∀ b ∈ strB "QUJDRkc", (b64Index b).isSome) ∧
      (decodeBase64Bytes (strB "QUJDRkc")).length =
        3 * ((strB "QUJDRkc").length / 4) +
          (if (strB "QUJDRkc").length % 4 = 3 then 2
           else if (strB "QUJDRkc").length % 4 = 2 then 1 else 0)) :=
  ⟨⟨by decide, by decide, c1_base64_decoder.1 (strB "QUJD") 45 (strB "RkdI") (by decide) (by decide)⟩,
    c1_base64_decoder.2.1 (strB "QUJD") (strB "zz"),
    ⟨by decide, c1_base64_decoder.2.2.1 (strB "QUJDRkc") (by decide)⟩⟩

/-! ## Lemmas about the vars map -/

theorem lookup_insertVar (k' v : List Nat) :
    ∀ (m : List (List Nat × List Nat)) (k : List Nat),
      lookupVar k (insertVar k' v m) = if k' = k then some v else lookupVar k m := by
  intro m
  induction m with
  | nil =>
    intro k
    by_cases h : k' = k <;> simp [insertVar, lookupVar, h]
  | cons a rest ih =>
    intro k
    obtain ⟨ka, va⟩ := a
    by_cases h1 : k' = ka
    · subst h1
      by_cases h2 : k' = k <;> simp [insertVar, lookupVar, h2]
    · simp only [insertVar, if_neg h1]
      by_cases hlt : listLt k' ka
      · rw [if_pos hlt]
        simp [lookupVar]
      · rw [if_neg hlt]
        simp only [lookupVar, ih]
        by_cases h3 : ka = k
        · have h2 : ¬ (k' = k) := fun h => h1 (h.trans h3.symm)
          simp [h3, h2]
        · simp [h3]

theorem parseLine_vars_shape (st : PersistedState) (l : List Nat) :
    (parseLine st l).vars = st.vars ∨
      ∃ k v, (parseLine st l).vars = insertVar k v st.vars := by
  unfold parseLine
  split
  · split
    · right; exact ⟨_, _, rfl⟩
    · left; rfl
  · left; rfl
  · left; rfl
  · left; rfl

theorem foldl_parseLine_isSome (k : List Nat) :
    ∀ (ls : List (List Nat)) (st : PersistedState),
      (lookupVar k st.vars).isSome →
      (lookupVar k (ls.foldl parseLine st).vars).isSome := by
  intro ls
  induction ls with
  | nil => intro st h; simpa using h
  | cons l ls ih =>
    intro st h
    simp only [List.foldl_cons]
    apply ih
    rcases parseLine_vars_shape st l with hs | ⟨k', v', hs⟩
    · rwa [hs]
    · rw [hs, lookup_insertVar]
      split <;> simp_all

theorem parseContent_keys (content : List Nat) :
    (lookupVar (strB "user") (parseContent content).vars).isSome ∧
    (lookupVar (strB "host") (parseContent content).vars).isSome ∧
    (lookupVar (strB "_vault") (parseContent content).vars).isSome := by
  unfold parseContent
  set st := (rustLines content).foldl parseLine PersistedState.new with hst
  have huser : (lookupVar (strB "user") st.vars).isSome :=
    foldl_parseLine_isSome _ _ _ (by decide)
  have hhost : (lookupVar (strB "host") st.vars).isSome :=
    foldl_parseLine_isSome _ _ _ (by decide)
  by_cases hv : (lookupVar (strB "_vault") st.vars).isSome
  · rw [if_pos hv]
    exact ⟨huser, hhost, hv⟩
  · rw [if_neg hv]
    refine ⟨?_, ?_, ?_⟩ <;> simp only [embed_flag, lookup_insertVar]
    · rw [if_neg (by decide : ¬ (strB "_vault" = strB "user"))]
      exact huser
    · rw [if_neg (by decide : ¬ (strB "_vault" = strB "host"))]
      exact hhost
    · simp

/-- C4: every path of the load state machine terminates in a state whose
vars contain `user`, `host`, and `_vault`. -/
theorem c4_load_invariants (fsv : LoadFsView) :
    (lookupVar (strB "user") ((load_state fsv).1).vars).isSome ∧
    (lookupVar (strB "host") ((load_state fsv).1).vars).isSome ∧
    (lookupVar (strB "_vault") ((load_state fsv).1).vars).isSome := by
  cases fsv with
  | noEfiDir => exact ⟨by decide, by decide, by decide⟩
  | noRamosDir => exact ⟨by decide, by decide, by decide⟩
  | noStateFile => exact ⟨by decide, by decide, by decide⟩
  | stateFile r => exact parseContent_keys _

/-- C5 counterexample: on the directory-present-but-file-unopenable path
the resulting history is not the two hint lines (it is four lines — the
pair is appended twice, by `default_state` and again at line 438). -/
theorem c5_counterexample :
    ((load_state LoadFsView.noStateFile).1).history ≠ [hintLine1, hintLine2] := by
  decide

/-- C5 (amended): every bootstrap path seeds the fixed encoded vault value
under `_vault`; the no-EFI-directory, no-RAMOS-directory, and
unreadable-file paths append the two fixed hint lines exactly once, while
the directory-present-but-file-unopenable path runs the seeding routine
twice and appends them twice. -/
theorem c5_bootstrap_seeding :
    (((load_state LoadFsView.noEfiDir).1).history = [hintLine1, hintLine2] ∧
      lookupVar (strB "_vault") ((load_state LoadFsView.noEfiDir).1).vars = some encodedVault) ∧
    (((load_state LoadFsView.noRamosDir).1).history = [hintLine1, hintLine2] ∧
      lookupVar (strB "_vault") ((load_state LoadFsView.noRamosDir).1).vars = some encodedVault) ∧
    (((load_state (LoadFsView.stateFile none)).1).history = [hintLine1, hintLine2] ∧
      lookupVar (strB "_vault") ((load_state (LoadFsView.stateFile none)).1).vars = some encodedVault) ∧
    (((load_state LoadFsView.noStateFile).1).history = [hintLine1, hintLine2, hintLine1, hintLine2] ∧
      lookupVar (strB "_vault") ((load_state LoadFsView.noStateFile).1).vars = some encodedVault) := by
  decide

/-- C10: the state-file parse reads at most 4096 bytes (later content is
ignored), a failed read yields the bootstrap-seeded default, and content
that is not valid UTF-8 likewise collapses to the bootstrap-seeded
default. -/
theorem c10_parse_limits :
    (∀ bytes : List Nat, parse_state (some bytes) = parse_state (some (bytes.take 4096))) ∧
    parse_state none = embed_flag PersistedState.new ∧
    (∀ bytes : List Nat, validUtf8 (bytes.take 4096) = false →
      parse_state (some bytes) = embed_flag PersistedState.new) := by
  refine ⟨?_, by decide, ?_⟩
  · intro bytes
    simp [parse_state, List.take_take]
  · intro bytes h
    unfold parse_state
    simp only [Option.getD_some, h, Bool.false_eq_true, if_false]
    decide

/-- Witness for C10 at a concrete input: the single byte 255 is not valid
UTF-8 and parsing it yields the bootstrap-seeded default state. -/
theorem c10_witness :
    validUtf8 ([255].take 4096) = false ∧
    parse_state (some [255]) = embed_flag PersistedState.new :=
  ⟨by decide, c10_parse_limits.2.2 [255] (by decide)⟩

/-! ## Lemmas about the line-oriented codec -/

theorem strB_kv : strB "kv:" = [107, 118, 58] := rfl

theorem strB_h : strB "h:" = [104, 58] := rfl

theorem strB_hintone : strB "hint:1" = [104, 105, 110, 116, 58, 49] := rfl

theorem splitNL_append (t : List Nat) :
    ∀ l : List Nat, 10 ∉ l → splitNL (l ++ 10 :: t) = l :: splitNL t := by
  intro l
  induction l with
  | nil => intro _; simp [splitNL]
  | cons b l ih =>
    intro h
    have hb : ¬ (b = 10) := fun e => h (by simp [e])
    have hl : 10 ∉ l := fun m => h (by simp [m])
    simp only [List.cons_append, splitNL, if_neg hb]
    rw [List.append_eq, ih hl]

theorem splitNL_flatten :
    ∀ L : List (List Nat), (∀ l ∈ L, 10 ∉ l) →
      splitNL ((L.map (· ++ [10])).flatten) = L ++ [[]] := by
  intro L
  induction L with
  | nil => intro _; simp [splitNL]
  | cons l L ih =>
    intro h
    have hl : 10 ∉ l := h l (by simp)
    have hL : ∀ x ∈ L, 10 ∉ x := fun x hx => h x (by simp [hx])
    simp only [List.map_cons, List.flatten_cons, List.append_assoc, List.singleton_append]
    rw [splitNL_append _ l hl, ih hL]
    rfl

theorem rustLines_flatten (L : List (List Nat)) (h : ∀ l ∈ L, 10 ∉ l) :
    rustLines ((L.map (· ++ [10])).flatten) = L.map stripCR := by
  unfold rustLines
  rw [splitNL_flatten L h]
  simp only [List.dropLast_concat, List.getLast?_concat]

theorem stripCR_eq {l : List Nat} (h : l.getLast? ≠ some 13) : stripCR l = l := by
  unfold stripCR
  rw [if_neg h]

theorem getLast?_cons_ne {a : Nat} {v : List Nat} (ha : a ≠ 13)
    (hv : v.getLast? ≠ some 13) : (a :: v).getLast? ≠ some 13 := by
  cases v with
  | nil => simp [ha]
  | cons b v' => rw [List.getLast?_cons_cons]; exact hv

theorem getLast?_append_right {l l' : List Nat} (h : l' ≠ []) :
    (l ++ l').getLast? = l'.getLast? := by
  rw [List.getLast?_append]
  have : l'.getLast?.isSome := List.getLast?_isSome.mpr h
  obtain ⟨a, ha⟩ := Option.isSome_iff_exists.mp this
  rw [ha]
  rfl

theorem kvLine_no_nl {k v : List Nat} (hk : 10 ∉ k) (hv : 10 ∉ v) :
    10 ∉ kvLine (k, v) := by
  intro hmem
  simp only [kvLine, strB_kv, List.mem_append, List.mem_cons] at hmem
  simp [hk, hv] at hmem

theorem kvLine_last {k v : List Nat} (hv : v.getLast? ≠ some 13) :
    (kvLine (k, v)).getLast? ≠ some 13 := by
  unfold kvLine
  rw [getLast?_append_right (by simp)]
  exact getLast?_cons_ne (by decide) hv

theorem hLine_no_nl {h : List Nat} (hh : 10 ∉ h) : 10 ∉ hLine h := by
  intro hmem
  simp only [hLine, strB_h, List.mem_append, List.mem_cons] at hmem
  simp [hh] at hmem

theorem hLine_last {h : List Nat} (hh : h.getLast? ≠ some 13) :
    (hLine h).getLast? ≠ some 13 := by
  unfold hLine
  cases h with
  | nil => decide
  | cons a t =>
    rw [getLast?_append_right (by simp)]
    exact hh

theorem splitOnceEq_append (v : List Nat) :
    ∀ k : List Nat, 61 ∉ k → splitOnceEq (k ++ 61 :: v) = some (k, v) := by
  intro k
  induction k with
  | nil => intro _; simp [splitOnceEq]
  | cons b k ih =>
    intro h
    have hb : ¬ (b = 61) := fun e => h (by simp [e])
    have hk : 61 ∉ k := fun m => h (by simp [m])
    simp only [List.cons_append, splitOnceEq, if_neg hb]
    rw [List.append_eq, ih hk]

theorem parseLine_kvLine {k v : List Nat} (hk : 61 ∉ k) (st : PersistedState) :
    parseLine st (kvLine (k, v)) = { st with vars := insertVar k v st.vars } := by
  have : kvLine (k, v) = 107 :: 118 :: 58 :: (k ++ 61 :: v) := by
    simp [kvLine, strB_kv]
  rw [this]
  simp only [parseLine]
  rw [splitOnceEq_append v k hk]

theorem parseLine_hLine (h : List Nat) (st : PersistedState) :
    parseLine st (hLine h) = { st with history := st.history ++ [h] } := rfl

theorem parseLine_hint (st : PersistedState) :
    parseLine st (strB "hint:1") = { st with hints_shown := true } := rfl

theorem foldl_parseLine_kvs :
    ∀ (vs : List (List Nat × List Nat)) (st : PersistedState), (∀ kv ∈ vs, 61 ∉ kv.1) →
      (vs.map kvLine).foldl parseLine st =
        { st with vars := vs.foldl (fun m kv => insertVar kv.1 kv.2 m) st.vars } := by
  intro vs
  induction vs with
  | nil => intro st _; rfl
  | cons kv vs ih =>
    intro st h
    obtain ⟨k, v⟩ := kv
    have hk : 61 ∉ k := h (k, v) (by simp)
    have hvs : ∀ kv ∈ vs, 61 ∉ kv.1 := fun kv hkv => h kv (by simp [hkv])
    simp only [List.map_cons, List.foldl_cons, parseLine_kvLine hk]
    rw [ih _ hvs]

theorem foldl_parseLine_hs :
    ∀ (hs : List (List Nat)) (st : PersistedState),
      (hs.map hLine).foldl parseLine st = { st with history := st.history ++ hs } := by
  intro hs
  induction hs with
  | nil => intro st; simp
  | cons h hs ih =>
    intro st
    simp only [List.map_cons, List.foldl_cons, parseLine_hLine]
    rw [ih]
    simp

theorem lookup_none_of_not_mem (k : List Nat) :
    ∀ vs : List (List Nat × List Nat), k ∉ vs.map Prod.fst → lookupVar k vs = none := by
  intro vs
  induction vs with
  | nil => intro _; rfl
  | cons kv vs ih =>
    intro h
    obtain ⟨k1, v1⟩ := kv
    simp only [List.map_cons, List.mem_cons, not_or] at h
    have h1 : ¬ (k1 = k) := fun e => h.1 e.symm
    simp [lookupVar, h1, ih h.2]

theorem lookup_foldl_insert :
    ∀ vs : List (List Nat × List Nat), (vs.map Prod.fst).Nodup →
      ∀ (m : List (List Nat × List Nat)) (k : List Nat),
        lookupVar k (vs.foldl (fun m kv => insertVar kv.1 kv.2 m) m) =
          (lookupVar k vs).or (lookupVar k m) := by
  intro vs
  induction vs with
  | nil => intro _ m k; simp [lookupVar]
  | cons kv vs ih =>
    intro hnd m k
    obtain ⟨k1, v1⟩ := kv
    simp only [List.map_cons, List.nodup_cons] at hnd
    obtain ⟨hk1, hnd'⟩ := hnd
    simp only [List.foldl_cons]
    rw [ih hnd']
    by_cases he : k1 = k
    · subst he
      have hnone : lookupVar k1 vs = none := lookup_none_of_not_mem k1 vs hk1
      rw [hnone]
      simp [lookupVar, lookup_insertVar]
    · have hcons : lookupVar k ((k1, v1) :: vs) = lookupVar k vs := by
        simp [lookupVar, he]
      rw [hcons]
      cases hv : lookupVar k vs with
      | some v => rfl
      | none =>
        simp only [Option.none_or]
        rw [lookup_insertVar, if_neg he]

/-- What the fresh default maps an arbitrary key to. -/
theorem lookup_new (k : List Nat) :
    lookupVar k PersistedState.new.vars =
      if strB "host" = k then some (strB "ramos")
      else if strB "user" = k then some (strB "ramos") else none := rfl

theorem parseContent_serialize (st : PersistedState)
    (hkeys : ∀ kv ∈ st.vars, 61 ∉ kv.1 ∧ 10 ∉ kv.1 ∧ 10 ∉ kv.2 ∧ kv.2.getLast? ≠ some 13)
    (hhist : ∀ h ∈ st.history, 10 ∉ h ∧ h.getLast? ≠ some 13) :
    (rustLines (serializeState st)).foldl parseLine PersistedState.new =
      { vars := st.vars.foldl (fun m kv => insertVar kv.1 kv.2 m) PersistedState.new.vars
        history := st.history
        hints_shown := st.hints_shown } := by
  have hnl : ∀ l ∈ stateLines st, 10 ∉ l := by
    intro l hl
    simp only [stateLines, List.mem_append, List.mem_map] at hl
    rcases hl with (⟨kv, hkv, rfl⟩ | ⟨h, hh, rfl⟩) | hl
    · exact kvLine_no_nl (hkeys kv hkv).2.1 (hkeys kv hkv).2.2.1
    · exact hLine_no_nl (hhist h hh).1
    · rcases Bool.eq_false_or_eq_true st.hints_shown with hb | hb <;>
        simp [hb] at hl
      subst hl
      decide
  have hcr : ∀ l ∈ stateLines st, stripCR l = l := by
    intro l hl
    apply stripCR_eq
    simp only [stateLines, List.mem_append, List.mem_map] at hl
    rcases hl with (⟨kv, hkv, rfl⟩ | ⟨h, hh, rfl⟩) | hl
    · exact kvLine_last (hkeys kv hkv).2.2.2
    · exact hLine_last (hhist h hh).2
    · rcases Bool.eq_false_or_eq_true st.hints_shown with hb | hb <;>
        simp [hb] at hl
      subst hl
      decide
  have hlines : rustLines (serializeState st) = stateLines st := by
    unfold serializeState
    rw [rustLines_flatten _ hnl]
    calc (stateLines st).map stripCR = (stateLines st).map id := List.map_congr_left hcr
      _ = stateLines st := List.map_id _
  rw [hlines]
  unfold stateLines
  rw [List.foldl_append, List.foldl_append]
  rw [foldl_parseLine_kvs st.vars PersistedState.new
    (fun kv hkv => (hkeys kv hkv).1)]
  rw [foldl_parseLine_hs]
  rcases Bool.eq_false_or_eq_true st.hints_shown with hb | hb
  · rw [hb]
    simp [PersistedState.new]
    exact parseLine_hint _
  · rw [hb]
    simp [PersistedState.new]

/-- C3 counterexample to the claim as stated: the empty state (whose keys
vacuously contain no `=`) does not round-trip — parsing its serialization
starts from the seeded default, so `user` appears and the bootstrap seeding
adds two history lines. -/
theorem c3_counterexample :
    (lookupVar (strB "user")
        (parseContent (serializeState { vars := [], history := [], hints_shown := false })).vars ≠
      lookupVar (strB "user")
        ({ vars := [], history := [], hints_shown := false } : PersistedState).vars) ∧
    (parseContent (serializeState { vars := [], history := [], hints_shown := false })).history ≠
      ({ vars := [], history := [], hints_shown := false } : PersistedState).history := by
  constructor
  · decide
  · decide

/-- C3 (amended): for every PersistedState whose var keys are distinct,
include `user`, `host` and `_vault`, and contain no `=` and no newline,
and whose values and history entries contain no newline and do not end in
a carriage return, parsing the serialization yields the same vars mapping
(pointwise lookup) and exactly the same history sequence. -/
theorem c3_roundtrip (st : PersistedState)
    (hnd : (st.vars.map Prod.fst).Nodup)
    (huser : (lookupVar (strB "user") st.vars).isSome)
    (hhost : (lookupVar (strB "host") st.vars).isSome)
    (hvault : (lookupVar (strB "_vault") st.vars).isSome)
    (hkeys : ∀ kv ∈ st.vars, 61 ∉ kv.1 ∧ 10 ∉ kv.1 ∧ 10 ∉ kv.2 ∧ kv.2.getLast? ≠ some 13)
    (hhist : ∀ h ∈ st.history, 10 ∉ h ∧ h.getLast? ≠ some 13) :
    (∀ k, lookupVar k (parseContent (serializeState st)).vars = lookupVar k st.vars) ∧
    (parseContent (serializeState st)).history = st.history := by
  have hfold := parseContent_serialize st hkeys hhist
  have hlook : ∀ k,
      lookupVar k ((rustLines (serializeState st)).foldl parseLine PersistedState.new).vars =
        lookupVar k st.vars := by
    intro k
    rw [hfold]
    show lookupVar k (st.vars.foldl (fun m kv => insertVar kv.1 kv.2 m) PersistedState.new.vars)
      = lookupVar k st.vars
    rw [lookup_foldl_insert st.vars hnd]
    cases ho : lookupVar k st.vars with
    | some v => rfl
    | none =>
      simp only [Option.none_or]
      rw [lookup_new]
      have hne1 : ¬ (strB "host" = k) := by
        intro e
        rw [← e] at ho
        rw [ho] at hhost
        simp at hhost
      have hne2 : ¬ (strB "user" = k) := by
        intro e
        rw [← e] at ho
        rw [ho] at huser
        simp at huser
      rw [if_neg hne1, if_neg hne2]
  have hvseeded : (lookupVar (strB "_vault")
      ((rustLines (serializeState st)).foldl parseLine PersistedState.new).vars).isSome := by
    rw [hlook]
    exact hvault
  constructor
  · intro k
    unfold parseContent
    rw [if_pos hvseeded]
    exact hlook k
  · unfold parseContent
    rw [if_pos hvseeded, hfold]

/-- Witness for C3 at a concrete state: the seeded default state (which
has `user`, `host` and `_vault` and hygienic contents) round-trips. -/
theorem c3_witness :
    lookupVar (strB "user")
        (parseContent (serializeState (embed_flag PersistedState.new))).vars =
      lookupVar (strB "user") (embed_flag PersistedState.new).vars ∧
    (parseContent (serializeState (embed_flag PersistedState.new))).history =
      (embed_flag PersistedState.new).history :=
  ⟨(c3_roundtrip (embed_flag PersistedState.new) (by decide) (by decide) (by decide)
      (by decide) (by decide) (by decide)).1 (strB "user"),
    (c3_roundtrip (embed_flag PersistedState.new) (by decide) (by decide) (by decide)
      (by decide) (by decide) (by decide)).2⟩

/-! ## Lemmas about the `_vault` key during parsing (C6) -/

theorem parseLine_vault (st : PersistedState) (l : List Nat) :
    lookupVar (strB "_vault") (parseLine st l).vars =
      (vaultValue? l).or (lookupVar (strB "_vault") st.vars) := by
  unfold parseLine
  split
  · rename_i rest
    show lookupVar (strB "_vault")
        ((match splitOnceEq rest with
          | some kv =>
            ({ vars := insertVar kv.1 kv.2 st.vars, history := st.history,
               hints_shown := st.hints_shown } : PersistedState)
          | none => st) : PersistedState).vars =
      ((match splitOnceEq rest with
        | some kv => if kv.1 = strB "_vault" then some kv.2 else none
        | none => none) : Option (List Nat)).or (lookupVar (strB "_vault") st.vars)
    cases hs : splitOnceEq rest with
    | some kv =>
      show lookupVar (strB "_vault") (insertVar kv.1 kv.2 st.vars) =
        (if kv.1 = strB "_vault" then some kv.2 else none).or
          (lookupVar (strB "_vault") st.vars)
      rw [lookup_insertVar]
      by_cases hv : kv.1 = strB "_vault"
      · rw [if_pos hv, if_pos hv]
        rfl
      · rw [if_neg hv, if_neg hv]
        rfl
    | none => rfl
  · rfl
  · rfl
  · rename_i h1 h2 h3
    have hv : vaultValue? l = none := by
      unfold vaultValue?
      split
      · rename_i rest
        exact absurd rfl (h1 rest)
      · rfl
    rw [hv]
    rfl

theorem lastVault_acc :
    ∀ (ls : List (List Nat)) (a : Option (List Nat)),
      ls.foldl (fun acc l => (vaultValue? l).or acc) a = (lastVault ls).or a := by
  intro ls
  induction ls with
  | nil => intro a; simp [lastVault]
  | cons l ls ih =>
    intro a
    simp only [List.foldl_cons, lastVault]
    rw [ih ((vaultValue? l).or a), ih ((vaultValue? l).or none)]
    simp [Option.or_assoc]

theorem foldl_parseLine_vault :
    ∀ (ls : List (List Nat)) (st : PersistedState),
      lookupVar (strB "_vault") ((ls.foldl parseLine st)).vars =
        (lastVault ls).or (lookupVar (strB "_vault") st.vars) := by
  intro ls
  induction ls with
  | nil => intro st; simp [lastVault]
  | cons l ls ih =>
    intro st
    simp only [List.foldl_cons]
    rw [ih, parseLine_vault]
    have h1 : lastVault (l :: ls) = (lastVault ls).or (vaultValue? l) := by
      unfold lastVault
      simp only [List.foldl_cons, Option.or_none]
      exact lastVault_acc ls (vaultValue? l)
    rw [h1, Option.or_assoc]

theorem lastVault_none :
    ∀ ls : List (List Nat), (∀ l ∈ ls, vaultValue? l = none) → lastVault ls = none := by
  intro ls
  induction ls with
  | nil => intro _; rfl
  | cons l ls ih =>
    intro h
    unfold lastVault
    simp only [List.foldl_cons, h l (by simp), Option.none_or]
    exact ih (fun x hx => h x (by simp [hx]))

theorem vaultValue?_vaultLine (v : List Nat) :
    vaultValue? (strB "kv:_vault=" ++ v) = some v := by
  show (match splitOnceEq (strB "_vault" ++ 61 :: v) with
    | some kv => if kv.1 = strB "_vault" then some kv.2 else none
    | none => none) = some v
  rw [splitOnceEq_append v (strB "_vault") (by decide)]
  simp

theorem lastVault_of_uniq (v : List Nat) :
    ∀ ls : List (List Nat), (strB "kv:_vault=" ++ v) ∈ ls →
      (∀ l ∈ ls, vaultValue? l = none ∨ l = strB "kv:_vault=" ++ v) →
      lastVault ls = some v := by
  intro ls
  induction ls with
  | nil => intro h _; simp at h
  | cons l ls ih =>
    intro hmem huniq
    have h1 : lastVault (l :: ls) = (lastVault ls).or (vaultValue? l) := by
      unfold lastVault
      simp only [List.foldl_cons, Option.or_none]
      exact lastVault_acc ls (vaultValue? l)
    by_cases hin : (strB "kv:_vault=" ++ v) ∈ ls
    · have hih := ih hin (fun x hx => huniq x (by simp [hx]))
      rw [h1, hih]
      rfl
    · have hl : l = strB "kv:_vault=" ++ v := by
        rcases List.mem_cons.mp hmem with he | he
        · exact he.symm
        · exact absurd he hin
      have hnone : lastVault ls = none := by
        apply lastVault_none
        intro x hx
        rcases huniq x (by simp [hx]) with h | h
        · exact h
        · exact absurd (h ▸ hx) hin
      rw [h1, hnone, hl, vaultValue?_vaultLine]
      rfl

/-- C6: when the content's only vault-setting line is `kv:_vault=<v>`,
parsing yields exactly `<v>` under `_vault`, and the bootstrap seeding
does not run (the parsed state is the plain fold of the lines, with no
`embed_flag` applied). -/
theorem c6_vault_preserved (content v : List Nat)
    (hmem : (strB "kv:_vault=" ++ v) ∈ rustLines content)
    (huniq : ∀ l ∈ rustLines content,
      vaultValue? l = none ∨ l = strB "kv:_vault=" ++ v) :
    lookupVar (strB "_vault") (parseContent content).vars = some v ∧
    parseContent content =
      (rustLines content).foldl parseLine PersistedState.new := by
  have hlast : lastVault (rustLines content) = some v :=
    lastVault_of_uniq v (rustLines content) hmem huniq
  have hlook : lookupVar (strB "_vault")
      ((rustLines content).foldl parseLine PersistedState.new).vars = some v := by
    rw [foldl_parseLine_vault, hlast]
    rfl
  have hsome : (lookupVar (strB "_vault")
      ((rustLines content).foldl parseLine PersistedState.new).vars).isSome := by
    rw [hlook]; rfl
  constructor
  · unfold parseContent
    rw [if_pos hsome]
    exact hlook
  · unfold parseContent
    rw [if_pos hsome]

/-- Witness for C6 at a concrete content with one `kv:_vault=` line. -/
theorem c6_witness :
    ((strB "kv:_vault=" ++ strB "QQ==") ∈ rustLines (strB "kv:_vault=QQ==\n")) ∧
    lookupVar (strB "_vault") (parseContent (strB "kv:_vault=QQ==\n")).vars =
      some (strB "QQ==") :=
  ⟨by decide,
    (c6_vault_preserved (strB "kv:_vault=QQ==\n") (strB "QQ==") (by decide) (by decide)).1⟩

/-! ## Lemmas about the command interpreter (C2, C7) -/

/-- The `flag` dispatch: with a concrete `flag` token the if-chain of
`execCmd` reduces to the vault lookup. -/
theorem execCmd_flag (args : List (List Nat)) (sh : ShellM) (st : PersistedState)
    (env : SysEnv) :
    execCmd (strB "flag") args sh st env =
      match lookupVar (strB "_vault") st.vars with
      | some secret =>
        (match decode_base64 secret with
         | some d => (println sh d, st)
         | none => (println sh (strB "vault sealed"), st))
      | none => (println sh (strB "nothing here"), st) := rfl

/-- With a concrete `flag` line, `execute` echoes the prompt and runs the
flag dispatch. -/
theorem execute_flag (sh : ShellM) (st : PersistedState) (env : SysEnv) :
    execute (strB "flag") sh st env =
      execCmd (strB "flag") [] (println sh (promptLine st (strB "flag"))) st env := rfl

/-- C2: the flag command prints the base64-decoded vault value on success,
`vault sealed` on decode failure, and `nothing here` when `_vault` is
absent; and the seeded payload decodes to exactly the flag text. -/
theorem c2_flag_command :
    (∀ (sh : ShellM) (st : PersistedState) (env : SysEnv) (s d : List Nat),
        lookupVar (strB "_vault") st.vars = some s → decode_base64 s = some d →
        (execute (strB "flag") sh st env).1.lines =
          sh.lines ++ [promptLine st (strB "flag"), d] ∧
        (execute (strB "flag") sh st env).2 = st) ∧
    (∀ (sh : ShellM) (st : PersistedState) (env : SysEnv) (s : List Nat),
        lookupVar (strB "_vault") st.vars = some s → decode_base64 s = none →
        (execute (strB "flag") sh st env).1.lines =
          sh.lines ++ [promptLine st (strB "flag"), strB "vault sealed"]) ∧
    (∀ (sh : ShellM) (st : PersistedState) (env : SysEnv),
        lookupVar (strB "_vault") st.vars = none →
        (execute (strB "flag") sh st env).1.lines =
          sh.lines ++ [promptLine st (strB "flag"), strB "nothing here"]) ∧
    decode_base64 encodedVault =
      some (strB "RAMOS\x7bF0und_3ven3_zr_st0nly_in_the_future\x7d") := by
  refine ⟨?_, ?_, ?_, by decide⟩
  · intro sh st env s d hv hd
    rw [execute_flag, execCmd_flag, hv]
    refine ⟨?_, ?_⟩ <;> simp [hd, println]
  · intro sh st env s hv hd
    rw [execute_flag, execCmd_flag, hv]
    simp only [hd]
    simp [println]
  · intro sh st env hv
    rw [execute_flag, execCmd_flag, hv]
    simp [println]

/-- Witness for C2: on the seeded default state, `flag` prints the decoded
flag text. -/
theorem c2_witness :
    lookupVar (strB "_vault") (embed_flag PersistedState.new).vars = some encodedVault ∧
    (execute (strB "flag") ⟨[], []⟩ (embed_flag PersistedState.new)
        ⟨LoadFsView.noEfiDir, none⟩).1.lines =
      ([] : List (List Nat)) ++
        [promptLine (embed_flag PersistedState.new) (strB "flag"),
         strB "RAMOS\x7bF0und_3ven3_zr_st0nly_in_the_future\x7d"] :=
  ⟨by decide,
    (c2_flag_command.1 ⟨[], []⟩ (embed_flag PersistedState.new) ⟨LoadFsView.noEfiDir, none⟩
      encodedVault (strB "RAMOS\x7bF0und_3ven3_zr_st0nly_in_the_future\x7d")
      (by decide) c2_flag_command.2.2.2).1⟩

/-- Every command except `load` leaves the persisted history unchanged
(state changes are confined to `vars` for `set`; `load` replaces the whole
state with the loaded one). -/
theorem execCmd_history_ne {cmd : List Nat} (hne : cmd ≠ strB "load")
    (args : List (List Nat)) (sh : ShellM) (st : PersistedState) (env : SysEnv) :
    ((execCmd cmd args sh st env).2).history = st.history := by
  unfold execCmd
  by_cases h1 : cmd = strB "help"
  · rw [if_pos h1]
  · rw [if_neg h1]
    by_cases h2 : cmd = strB "about"
    · rw [if_pos h2]
    · rw [if_neg h2]
      by_cases h3 : cmd = strB "clear"
      · rw [if_pos h3]
      · rw [if_neg h3]
        by_cases h4 : cmd = strB "echo"
        · rw [if_pos h4]
        · rw [if_neg h4]
          by_cases h5 : cmd = strB "set"
          · rw [if_pos h5]
            rcases args with _ | ⟨k, _ | ⟨v, r⟩⟩ <;> rfl
          · rw [if_neg h5]
            by_cases h6 : cmd = strB "get"
            · rw [if_pos h6]
              rcases args with _ | ⟨k, r⟩
              · rfl
              · show (match lookupVar k st.vars with
                  | some v => (println sh v, st)
                  | none => (println sh (strB "(unset)"), st)).2.history = st.history
                cases lookupVar k st.vars <;> rfl
            · rw [if_neg h6]
              by_cases h7 : cmd = strB "vars"
              · rw [if_pos h7]
              · rw [if_neg h7]
                by_cases h8 : cmd = strB "history"
                · rw [if_pos h8]
                · rw [if_neg h8]
                  by_cases h9 : cmd = strB "save"
                  · rw [if_pos h9]
                  · rw [if_neg h9]
                    by_cases h10 : cmd = strB "load"
                    · exact absurd h10 hne
                    · rw [if_neg h10]
                      by_cases h11 : cmd = strB "reboot"
                      · rw [if_pos h11]
                      · rw [if_neg h11]
                        by_cases h12 : cmd = strB "shutdown"
                        · rw [if_pos h12]
                        · rw [if_neg h12]
                          by_cases h13 : cmd = strB "flag"
                          · rw [if_pos h13]
                            cases lookupVar (strB "_vault") st.vars with
                            | some s =>
                              show (match decode_base64 s with
                                | some d => (println sh d, st)
                                | none => (println sh (strB "vault sealed"), st)).2.history =
                                  st.history
                              cases decode_base64 s <;> rfl
                            | none => rfl
                          · rw [if_neg h13]

/-- The `load` dispatch replaces the state with the loaded one. -/
theorem execCmd_load (args : List (List Nat)) (sh : ShellM) (st : PersistedState)
    (env : SysEnv) :
    (execCmd (strB "load") args sh st env).2 = (load_state env.fsv).1 := rfl

/-- C7 counterexample to the claim as stated: committing the line `load`
wipes an existing history entry — the whole state, history included, is
replaced by the loaded (here: freshly seeded) state. -/
theorem c7_counterexample :
    strB "ls" ∈ stateWithLs.history ∧
    strB "ls" ∉ ((session_step KeyEvent.enter ⟨[], strB "load"⟩ stateWithLs
        ⟨LoadFsView.noEfiDir, none⟩).2).history := by
  constructor
  · decide
  · decide

/-- C7 (amended): on commit of a non-empty line the line is appended
verbatim to the history, and every session operation other than a
committed `load` command only appends to the history; a committed `load`
replaces the whole state, history included, with the loaded state's. -/
theorem c7_history (ev : KeyEvent) (sh : ShellM) (st : PersistedState) (env : SysEnv) :
    (¬ (ev = KeyEvent.enter ∧ (splitWS sh.input).head? = some (strB "load")) →
      ((session_step ev sh st env).2).history =
        st.history ++
          (if ev = KeyEvent.enter ∧ sh.input ≠ [] then [sh.input] else [])) ∧
    (ev = KeyEvent.enter → (splitWS sh.input).head? = some (strB "load") →
      ((session_step ev sh st env).2).history = ((load_state env.fsv).1).history) := by
  cases ev with
  | printable c =>
    refine ⟨fun _ => ?_, fun h _ => absurd h (by simp)⟩
    show st.history = st.history ++ _
    rw [if_neg (by simp), List.append_nil]
  | backspace =>
    refine ⟨fun _ => ?_, fun h _ => absurd h (by simp)⟩
    show st.history = st.history ++ _
    rw [if_neg (by simp), List.append_nil]
  | escape =>
    refine ⟨fun _ => ?_, fun h _ => absurd h (by simp)⟩
    show st.history = st.history ++ _
    rw [if_neg (by simp), List.append_nil]
  | other =>
    refine ⟨fun _ => ?_, fun h _ => absurd h (by simp)⟩
    show st.history = st.history ++ _
    rw [if_neg (by simp), List.append_nil]
  | enter =>
    by_cases hinput : sh.input = []
    · constructor
      · intro _
        show ((execute sh.input { sh with input := [] }
            (if sh.input ≠ [] then { st with history := st.history ++ [sh.input] } else st)
            env).2).history = _
        rw [hinput]
        simp [execute]
      · intro _ hhead
        rw [hinput] at hhead
        exact absurd hhead (by decide)
    · have hst' : (if sh.input ≠ [] then
          { st with history := st.history ++ [sh.input] } else st) =
          { st with history := st.history ++ [sh.input] } := if_pos hinput
      constructor
      · intro hne
        show ((execute sh.input { sh with input := [] }
            (if sh.input ≠ [] then { st with history := st.history ++ [sh.input] } else st)
            env).2).history = _
        rw [hst', if_pos ⟨rfl, hinput⟩]
        simp only [execute]
        rw [if_neg hinput]
        cases hsplit : splitWS sh.input with
        | nil => rfl
        | cons cmd args =>
          have hcmd : cmd ≠ strB "load" := by
            intro e
            exact hne ⟨rfl, by rw [hsplit, e]; rfl⟩
          exact execCmd_history_ne hcmd args _ _ env
      · intro _ hhead
        show ((execute sh.input { sh with input := [] }
            (if sh.input ≠ [] then { st with history := st.history ++ [sh.input] } else st)
            env).2).history = _
        rw [hst']
        simp only [execute]
        rw [if_neg hinput]
        cases hsplit : splitWS sh.input with
        | nil => rw [hsplit] at hhead; exact absurd hhead (by decide)
        | cons cmd args =>
          rw [hsplit] at hhead
          have hcmd : cmd = strB "load" := by
            simpa using hhead
          subst hcmd
          exact congrArg PersistedState.history (execCmd_load args _ _ env)

/-- Witness for C7: committing the non-`load` line `set` appends it
verbatim to the history and changes nothing else there. -/
theorem c7_witness :
    ((session_step KeyEvent.enter ⟨[], strB "set"⟩ (embed_flag PersistedState.new)
        ⟨LoadFsView.noEfiDir, none⟩).2).history =
      (embed_flag PersistedState.new).history ++
        (if KeyEvent.enter = KeyEvent.enter ∧ strB "set" ≠ [] then [strB "set"] else []) :=
  (c7_history KeyEvent.enter ⟨[], strB "set"⟩ (embed_flag PersistedState.new)
    ⟨LoadFsView.noEfiDir, none⟩).1 (by decide)

/-! ## Lemmas about the framebuffer (C8, C9) -/

theorem writePx_length (stride px : Nat) (c : Nat × Nat × Nat) (buf : List Nat)
    (col row : Nat) : (writePx stride px c buf col row).length = buf.length := by
  unfold writePx
  by_cases h : row * stride * px + col * px + 3 > buf.length
  · rw [if_pos h]
  · rw [if_neg h]
    simp

theorem writePx_get (stride : Nat) (c : Nat × Nat × Nat) (buf : List Nat)
    (col row j : Nat) :
    (writePx stride 4 c buf col row)[j]? =
      if cellHits stride buf.length (col, row) j then some (byteOfColor c (j % 4))
      else buf[j]? := by
  unfold writePx cellHits
  by_cases hb : row * stride * 4 + col * 4 + 3 > buf.length
  · rw [if_pos hb, if_neg (by simp only []; omega)]
  · rw [if_neg hb]
    have hlen : row * stride * 4 + col * 4 + 3 ≤ buf.length := by omega
    by_cases h0 : j = row * stride * 4 + col * 4
    · rw [if_pos ⟨hlen, Or.inl h0⟩]
      rw [List.getElem?_set_ne (by omega), List.getElem?_set_ne (by omega), h0,
        List.getElem?_set_self (by omega)]
      have hj : (row * stride * 4 + col * 4) % 4 = 0 := by omega
      rw [hj]
      rfl
    · by_cases h1 : j = row * stride * 4 + col * 4 + 1
      · rw [if_pos ⟨hlen, Or.inr (Or.inl h1)⟩]
        rw [List.getElem?_set_ne (by omega), h1,
          List.getElem?_set_self (by simp; omega)]
        have hj : (row * stride * 4 + col * 4 + 1) % 4 = 1 := by omega
        rw [hj]
        rfl
      · by_cases h2 : j = row * stride * 4 + col * 4 + 2
        · rw [if_pos ⟨hlen, Or.inr (Or.inr h2)⟩]
          rw [h2, List.getElem?_set_self (by simp; omega)]
          have hj : (row * stride * 4 + col * 4 + 2) % 4 = 2 := by omega
          rw [hj]
          rfl
        · rw [if_neg (by push_neg; exact fun _ => ⟨h0, h1, h2⟩)]
          rw [List.getElem?_set_ne (by omega), List.getElem?_set_ne (by omega),
            List.getElem?_set_ne (by omega)]

theorem foldl_writePx_length (stride : Nat) (c : Nat × Nat × Nat) :
    ∀ (cells : List (Nat × Nat)) (buf : List Nat),
      (cells.foldl (fun b rc => writePx stride 4 c b rc.1 rc.2) buf).length =
        buf.length := by
  intro cells
  induction cells with
  | nil => intro buf; rfl
  | cons rc cells ih =>
    intro buf
    simp only [List.foldl_cons]
    rw [ih, writePx_length]

theorem foldl_writePx_get (stride : Nat) (c : Nat × Nat × Nat) :
    ∀ (cells : List (Nat × Nat)) (buf : List Nat) (j : Nat),
      (cells.foldl (fun b rc => writePx stride 4 c b rc.1 rc.2) buf)[j]? =
        if ∃ rc ∈ cells, cellHits stride buf.length rc j then
          some (byteOfColor c (j % 4))
        else buf[j]? := by
  intro cells
  induction cells with
  | nil =>
    intro buf j
    rw [if_neg (by simp)]
    rfl
  | cons rc cells ih =>
    intro buf j
    simp only [List.foldl_cons]
    rw [ih]
    simp only [writePx_length]
    by_cases hex : ∃ x ∈ cells, cellHits stride buf.length x j
    · rw [if_pos hex]
      obtain ⟨x, hx, hc⟩ := hex
      rw [if_pos ⟨x, List.mem_cons_of_mem _ hx, hc⟩]
    · rw [if_neg hex, writePx_get, Prod.mk.eta]
      by_cases hh : cellHits stride buf.length rc j
      · rw [if_pos hh, if_pos ⟨rc, List.mem_cons_self _ _, hh⟩]
      · rw [if_neg hh]
        rw [if_neg ?hno]
        case hno =>
          rintro ⟨z, hz, hcz⟩
          rcases List.mem_cons.mp hz with rfl | hz'
          · exact hh hcz
          · exact hex ⟨z, hz', hcz⟩

theorem fill_rect_eq (stride px x y w h : Nat) (c : Nat × Nat × Nat) (buf : List Nat) :
    fill_rect stride px x y w h c buf =
      (rectCells x y w h).foldl (fun b rc => writePx stride px c b rc.1 rc.2) buf := by
  unfold fill_rect rectCells
  rw [List.foldl_flatten, List.foldl_map]
  apply List.foldl_ext
  intro b r _
  rw [List.foldl_map]

/-- C8: with the program's fixed 4 bytes per pixel, `fill_rect` preserves
the buffer length, writes the color byte (blue, green, red at offsets
0, 1, 2 of the cell) into exactly those byte positions covered by a cell
of the rectangle whose three-byte write fits inside the buffer, and leaves
every other byte — outside the rectangle or out of bounds — unchanged;
being a total function it cannot fault, also when the rectangle extends
past the buffer's bottom-right corner. -/
theorem c8_fill_rect (stride x y w h : Nat) (c : Nat × Nat × Nat) (buf : List Nat) :
    (fill_rect stride 4 x y w h c buf).length = buf.length ∧
    ∀ j : Nat,
      (fill_rect stride 4 x y w h c buf)[j]? =
        if ∃ r < h, ∃ cl < w, cellHits stride buf.length (x + cl, y + r) j then
          some (byteOfColor c (j % 4))
        else buf[j]? := by
  constructor
  · rw [fill_rect_eq]
    exact foldl_writePx_length stride c _ buf
  · intro j
    rw [fill_rect_eq, foldl_writePx_get]
    have hiff : (∃ rc ∈ rectCells x y w h, cellHits stride buf.length rc j) ↔
        (∃ r < h, ∃ cl < w, cellHits stride buf.length (x + cl, y + r) j) := by
      constructor
      · rintro ⟨rc, hrc, hc⟩
        simp only [rectCells, List.mem_flatten, List.mem_map, List.mem_range] at hrc
        obtain ⟨l, ⟨r, hr, rfl⟩, hrcl⟩ := hrc
        obtain ⟨cl, hcl, rfl⟩ := List.mem_map.mp hrcl
        exact ⟨r, by simpa using hr, cl, by simpa using hcl, hc⟩
      · rintro ⟨r, hr, cl, hcl, hc⟩
        refine ⟨(x + cl, y + r), ?_, hc⟩
        simp only [rectCells, List.mem_flatten, List.mem_map, List.mem_range]
        exact ⟨(List.range w).map (fun cl => (x + cl, y + r)), ⟨r, hr, rfl⟩,
          List.mem_map.mpr ⟨cl, by simpa using hcl, rfl⟩⟩
    rw [if_congr hiff rfl rfl]

/-- C9: `draw_text` renders glyphs left to right advancing exactly 8
pixels each, stopping — dropping all remaining characters, with no
wrapping — as soon as the next glyph's right edge would reach or pass the
buffer width: when the first glyph's right edge already does, nothing is
rendered; in general exactly the first `min text.length (numFit width x)`
glyphs are rendered, glyph `i` at x-position `x + 8*i`. -/
theorem c9_draw_text :
    (∀ (render : Nat → Nat → Nat → List Nat → List Nat) (width x y : Nat)
        (text buf : List Nat), x + 8 ≥ width →
        draw_text render width y x text buf = buf) ∧
    (∀ (render : Nat → Nat → Nat → List Nat → List Nat) (width x y : Nat)
        (text buf : List Nat),
        draw_text render width y x text buf =
          (List.range (min text.length (numFit width x))).foldl
            (fun b i => render (x + 8 * i) y (text.getD i 0) b) buf) := by
  constructor
  · intro render width x y text buf hw
    cases text with
    | nil => rfl
    | cons ch rest =>
      simp only [draw_text]
      rw [if_pos hw]
  · intro render width x y text buf
    induction text generalizing x buf with
    | nil => simp [draw_text]
    | cons ch rest ih =>
      simp only [draw_text]
      by_cases hw : x + 8 ≥ width
      · rw [if_pos hw]
        have h0 : numFit width x = 0 := by unfold numFit; omega
        rw [h0]
        simp
      · rw [if_neg hw]
        rw [ih (x + 8) (render x y ch buf)]
        have hnf : numFit width x = numFit width (x + 8) + 1 := by
          unfold numFit
          omega
        have hmin : min (ch :: rest).length (numFit width x) =
            min rest.length (numFit width (x + 8)) + 1 := by
          simp only [List.length_cons, hnf]
          omega
        rw [hmin, List.range_succ_eq_map, List.foldl_cons, List.foldl_map]
        apply List.foldl_ext
        intro b i _
        simp only [Nat.succ_eq_add_one, List.getD_cons_succ]
        have hx : x + 8 + 8 * i = x + 8 * (i + 1) := by ring
        rw [hx]

/-- Witness for C9 at a concrete position: at `x = 0` with buffer width 8,
the first glyph's right edge already reaches the width and nothing is
rendered. -/
theorem c9_witness :
    (0 : Nat) + 8 ≥ 8 ∧
    draw_text (fun _ _ _ b => b) 8 0 0 (strB "A") [1, 2, 3] = [1, 2, 3] :=
  ⟨by decide,
    c9_draw_text.1 (fun _ _ _ b => b) 8 0 0 (strB "A") [1, 2, 3] (by decide)⟩

end Ramos
